import Mathlib

/-!
# Verification of `unique_tile_extract` (`tile_extract.py`)

A shallow embedding of the tile-extraction tool: a large raster image is
partitioned into `tile_size × tile_size` tiles, duplicate tiles are removed
while a row-major sequence of 1-based indices into the unique-tile list is
recorded, the unique tiles are planned onto power-of-two square sheets, and
the index sequence is serialised as little-endian 32-bit integers in base64.

Conventions of the embedding:
* A pixel channel value is a `Nat` (the PNG reader yields 8-bit values
  `0 ≤ v ≤ 255`; CPython interns these small integers, so the `is not`
  comparison in `compare_tiles` coincides with value inequality on the data
  this program processes, and is embedded as `≠` on `Nat`).
* A pixel row is a flat `List Nat` of channel values (`R,G,B,R,G,B,…`),
  exactly as in the Python tile layout.
* Python lists become Lean `List`s; out-of-range indexing that the program
  never exercises is totalised with `List.getD` defaults (each such spot is
  noted in the corresponding doc comment).
* Fallible operations return `Option`/`Except`.
-/

/-- A tile: `tile_size` rows, each a flat list of `tile_size * 3` channel
values.  This is the structure documented at the top of `TileExtractor`. -/
abbrev Tile := List (List Nat)

/-! ## RasterScanner: slicing the image into tile candidates
(`populate_extractor`, lines 116–137) -/

/-- One row of the `j`-th tile of a band:
`list(elm[cur_slice_x * 3 : cur_slice_x * 3 + tile_size * 3])` with
`cur_slice_x = j * tile_size`. -/
def tile_row_slice (ts j : Nat) (row : List Nat) : List Nat :=
  (row.drop (j * (ts * 3))).take (ts * 3)

/-- The `j`-th tile of a band of `tile_size` consecutive pixel rows: the rows
of the band are appended to `new_tiles[j]` one by one, which amounts to
mapping the row slice over the band. -/
def make_tile (band : List (List Nat)) (ts j : Nat) : Tile :=
  band.map (tile_row_slice ts j)

/-- The `b`-th band of `tile_size` consecutive image rows
(`itertools.islice(iter_map, 0, tile_size)` applied repeatedly). -/
def image_band (image : List (List Nat)) (ts b : Nat) : List (List Nat) :=
  (image.drop (b * ts)).take ts

/-- The tiles of one band, left to right (`new_tiles` after the row loop). -/
def band_tiles (band : List (List Nat)) (ts tw : Nat) : List Tile :=
  (List.range tw).map (make_tile band ts)

/-- All tile candidates of the image in raster order: bands top to bottom,
tiles left to right within a band. -/
def tile_candidates (image : List (List Nat)) (ts tw th : Nat) : List Tile :=
  (List.range th).flatMap (fun b => band_tiles (image_band image ts b) ts tw)

/-! ## TileDeduplicator (`populate_extractor` lines 138–152,
`compare_tiles` lines 162–175) -/

/-- `compare_tiles` (lines 162–175): walks the row and column ranges of the
first tile and compares the corresponding entries of the second tile.
Indexing of `tile_row_list2` beyond its length raises `IndexError` in Python
and never occurs on the extraction path (all tiles have equal dimensions);
the embedding totalises it with a `getD` default. -/
def compare_tiles (tile_row_list1 tile_row_list2 : Tile) : Bool :=
  (List.range tile_row_list1.length).all (fun row =>
    (List.range (tile_row_list1.getD row []).length).all (fun col =>
      (tile_row_list1.getD row []).getD col 0
        == (tile_row_list2.getD row []).getD col 0))

/-- The inner loop of lines 143–147: scan the master tile list in insertion
order and return the (0-based) position of the first tile for which
`compare_tiles` succeeds, breaking at the first match. -/
def find_master_index (tiles : List Tile) (t : Tile) : Option Nat :=
  match tiles with
  | [] => none
  | m :: rest =>
      if compare_tiles m t then some 0
      else (find_master_index rest t).map (fun i => i + 1)

/-- One deduplication step (lines 141–152): if a matching master tile is
found its 1-based index is appended to the index list and the tile list is
unchanged; otherwise the candidate is appended (`copy.deepcopy` is value
copying, which Lean lists give for free) and the new length is appended as
its 1-based index. -/
def admit_tile (st : List Tile × List Nat) (t : Tile) : List Tile × List Nat :=
  match find_master_index st.1 t with
  | some i => (st.1, st.2 ++ [i + 1])
  | none => (st.1 ++ [t], st.2 ++ [st.1.length + 1])

/-- The whole deduplication pass over the candidates, starting from the
empty `self.tiles` / `self.tile_indices` initialised at lines 96–100. -/
def extract_tiles (cands : List Tile) : List Tile × List Nat :=
  cands.foldl admit_tile ([], [])

/-- `populate_extractor` (lines 61–160), pure core: checks the size
precondition of line 89 (returning `none` mirrors the early `return` that
leaves `self.tiles = None`; `tile_size = 0` raises `ZeroDivisionError` in
Python and is also mapped to `none`), then splits the image into candidates
and deduplicates them.  `width`/`height` are the PNG's reported size,
`image` its decoded rows of `width * 3` channel values. -/
def populate_extractor (image : List (List Nat)) (width height ts : Nat) :
    Option (List Tile × List Nat) :=
  if ts = 0 ∨ width % ts ≠ 0 ∨ height % ts ≠ 0 then none
  else some (extract_tiles (tile_candidates image ts (width / ts) (height / ts)))

/-- Reconstruction of the raster from the extractor output, following the
spec (§8 Grid reconstruction): look up each grid cell's 1-based index in the
unique-tile list and tile the results row-major. -/
def reconstruct (tiles : List Tile) (idxs : List Nat) (ts tw th : Nat) :
    List (List Nat) :=
  (List.range th).flatMap (fun b =>
    (List.range ts).map (fun r =>
      (List.range tw).flatMap (fun j =>
        (tiles.getD (idxs.getD (b * tw + j) 0 - 1) []).getD r [])))

/-- A tile of the expected dimensions: `tile_size` rows of `tile_size * 3`
channel values. -/
def tile_dims (ts : Nat) (t : Tile) : Prop :=
  t.length = ts ∧ ∀ r ∈ t, r.length = ts * 3

instance (ts : Nat) (t : Tile) : Decidable (tile_dims ts t) := by
  unfold tile_dims; infer_instance

/-- All tiles of a list have the expected dimensions. -/
def tiles_ok (ts : Nat) (tiles : List Tile) : Prop :=
  ∀ t ∈ tiles, tile_dims ts t

instance (ts : Nat) (tiles : List Tile) : Decidable (tiles_ok ts tiles) := by
  unfold tiles_ok
  infer_instance

/-! ## General list lemmas used throughout -/

/-- `getD` of a mapped list inside the bounds. -/
lemma getD_map_lt {α β : Type} (f : α → β) (l : List α) {i : Nat}
    (h : i < l.length) (d : β) (d0 : α) :
    (l.map f).getD i d = f (l.getD i d0) := by
  rw [List.getD_eq_getElem _ _ (by simpa using h), List.getD_eq_getElem _ _ h]
  simp

/-- Reading a list back off by positions. -/
lemma map_getD_range {α : Type} (l : List α) (d : α) :
    (List.range l.length).map (fun i => l.getD i d) = l := by
  induction l with
  | nil => simp
  | cons a tl ih =>
      rw [List.length_cons, List.range_succ_eq_map, List.map_cons, List.map_map]
      simp only [Function.comp_def, Nat.succ_eq_add_one, List.getD_cons_zero,
        List.getD_cons_succ]
      rw [ih]

/-- `flatMap` only looks at the function's values on members. -/
lemma flatMap_congr_mem {α β : Type} (l : List α) (f g : α → List β)
    (h : ∀ a ∈ l, f a = g a) : l.flatMap f = l.flatMap g := by
  induction l with
  | nil => rfl
  | cons a tl ih =>
      rw [List.flatMap_cons, List.flatMap_cons, h a (by simp),
        ih (fun x hx => h x (by simp [hx]))]

/-- Length of a `flatMap` over a range of constant-length blocks. -/
lemma length_flatMap_range_const {α : Type} (k : Nat) :
    ∀ (n : Nat) (f : Nat → List α), (∀ b, b < n → (f b).length = k) →
    ((List.range n).flatMap f).length = n * k := by
  intro n
  induction n with
  | zero => intro f _; simp
  | succ m ih =>
      intro f hf
      rw [List.range_succ, List.flatMap_append, List.length_append,
        ih f (fun b hb => hf b (by omega)), List.flatMap_singleton,
        hf m (by omega)]
      ring

/-- Block decomposition of indexing into a `flatMap` over a range of
constant-length blocks. -/
lemma getD_flatMap_range_const {α : Type} (k : Nat) (d : α) :
    ∀ (n : Nat) (f : Nat → List α), (∀ b, b < n → (f b).length = k) →
    ∀ b j, b < n → j < k →
    ((List.range n).flatMap f).getD (b * k + j) d = (f b).getD j d := by
  intro n
  induction n with
  | zero => intro f _ b j hb _; omega
  | succ m ih =>
      intro f hf b j hb hj
      rw [List.range_succ_eq_map, List.flatMap_cons, List.flatMap_map]
      cases b with
      | zero =>
          simp only [Nat.zero_mul, Nat.zero_add]
          exact List.getD_append _ _ _ _ (by rw [hf 0 (by omega)]; exact hj)
      | succ b =>
          rw [List.getD_append_right _ _ _ _
            (by rw [hf 0 (by omega)]; nlinarith)]
          have harith : (b + 1) * k + j - (f 0).length = b * k + j := by
            rw [hf 0 (by omega)]; have : (b + 1) * k = b * k + k := by ring
            omega
          rw [harith]
          exact ih (fun x => f (x + 1)) (fun x hx => hf (x + 1) (by omega))
            b j (by omega) hj

/-- Splitting a list into `n` consecutive chunks of length `k` and
concatenating them back gives the list. -/
lemma flatMap_range_chunks {α : Type} (k : Nat) :
    ∀ (n : Nat) (l : List α), l.length = n * k →
    (List.range n).flatMap (fun j => (l.drop (j * k)).take k) = l := by
  intro n
  induction n with
  | zero =>
      intro l hl
      have hnil : l = [] := List.eq_nil_of_length_eq_zero (by simpa using hl)
      simp [hnil]
  | succ m ih =>
      intro l hl
      rw [List.range_succ_eq_map, List.flatMap_cons, List.flatMap_map]
      simp only [Nat.zero_mul, List.drop_zero]
      have hfun : ((List.range m).flatMap fun a => (l.drop (Nat.succ a * k)).take k)
          = ((List.range m).flatMap fun a => (((l.drop k).drop (a * k)).take k)) := by
        apply congrArg
        funext a
        rw [List.drop_drop]
        have harith : Nat.succ a * k = k + a * k := by
          simp [Nat.succ_eq_add_one]
          ring
        rw [harith]
      have hlen : (l.drop k).length = m * k := by
        rw [List.length_drop, hl]
        have harith2 : (m + 1) * k = m * k + k := by ring
        omega
      rw [hfun, ih (l.drop k) hlen]
      exact List.take_append_drop k l

/-- Length of a `flatMap` with constant-length blocks. -/
lemma length_flatMap_const {α β : Type} (g : α → List β) (k : Nat)
    (hg : ∀ a, (g a).length = k) : ∀ l : List α, (l.flatMap g).length = l.length * k := by
  intro l
  induction l with
  | nil => simp
  | cons a tl ih =>
      rw [List.flatMap_cons, List.length_append, hg, ih, List.length_cons]
      ring

/-- Chunk extraction from a `flatMap` with constant-length blocks. -/
lemma drop_take_flatMap_const {α β : Type} (g : α → List β) (k : Nat) (d : α)
    (hg : ∀ a, (g a).length = k) :
    ∀ (l : List α) (i : Nat), i < l.length →
    ((l.flatMap g).drop (i * k)).take k = g (l.getD i d) := by
  intro l
  induction l with
  | nil => intro i hi; simp at hi
  | cons a tl ih =>
      intro i hi
      rw [List.flatMap_cons]
      cases i with
      | zero =>
          simp only [Nat.zero_mul, List.drop_zero, List.getD_cons_zero]
          rw [← hg a, List.take_left]
      | succ i =>
          have harith : (i + 1) * k = (g a).length + i * k := by rw [hg]; ring
          rw [harith, List.drop_append, List.getD_cons_succ]
          exact ih i (by simpa using hi)

/-- The `getD` default of a non-empty list is a member. -/
lemma getD_mem_of_lt {α : Type} (l : List α) {i : Nat} (h : i < l.length) (d : α) :
    l.getD i d ∈ l := by
  rw [List.getD_eq_getElem _ _ h]
  exact List.getElem_mem h

/-! ## Properties of `compare_tiles` and the deduplication step -/

/-- `compare_tiles` on tiles of matching dimensions is exactly structural
equality of the pixel data. -/
lemma compare_tiles_eq_true_iff (t1 t2 : Tile)
    (hlen : t1.length = t2.length)
    (hrows : ∀ p, p < t1.length → (t1.getD p []).length = (t2.getD p []).length) :
    compare_tiles t1 t2 = true ↔ t1 = t2 := by
  unfold compare_tiles
  simp only [List.all_eq_true, List.mem_range, beq_iff_eq]
  constructor
  · intro h
    apply List.ext_getElem hlen
    intro n h1 h2
    apply List.ext_getElem
    · have hr := hrows n h1
      rw [List.getD_eq_getElem _ _ h1, List.getD_eq_getElem _ _ h2] at hr
      exact hr
    · intro c hc1 hc2
      have hcd := h n h1 c (by rw [List.getD_eq_getElem _ _ h1]; exact hc1)
      rw [List.getD_eq_getElem _ _ h1, List.getD_eq_getElem _ _ h2] at hcd
      rw [List.getD_eq_getElem _ _ hc1, List.getD_eq_getElem _ _ hc2] at hcd
      exact hcd
  · intro h
    subst h
    intro r _ c _
    rfl

/-- Specialisation to tiles of the nominal `tile_size` dimensions. -/
lemma compare_tiles_iff_of_dims {ts : Nat} {t1 t2 : Tile}
    (h1 : tile_dims ts t1) (h2 : tile_dims ts t2) :
    compare_tiles t1 t2 = true ↔ t1 = t2 := by
  apply compare_tiles_eq_true_iff
  · rw [h1.1, h2.1]
  · intro p hp
    have hp2 : p < t2.length := by
      rw [h2.1]
      rw [h1.1] at hp
      exact hp
    rw [h1.2 _ (getD_mem_of_lt t1 hp []), h2.2 _ (getD_mem_of_lt t2 hp2 [])]

/-- A successful master scan yields the first matching position. -/
lemma find_master_index_some {tiles : List Tile} {t : Tile} {i : Nat}
    (h : find_master_index tiles t = some i) :
    i < tiles.length ∧ compare_tiles (tiles.getD i []) t = true ∧
      ∀ j, j < i → compare_tiles (tiles.getD j []) t = false := by
  induction tiles generalizing i with
  | nil => simp [find_master_index] at h
  | cons m rest ih =>
      rw [find_master_index] at h
      by_cases hm : compare_tiles m t
      · rw [if_pos hm] at h
        have hi : i = 0 := by
          cases h
          rfl
        subst hi
        exact ⟨by simp, by simpa using hm, by omega⟩
      · rw [if_neg hm] at h
        rw [Option.map_eq_some'] at h
        obtain ⟨i0, hfr, hi⟩ := h
        subst hi
        obtain ⟨hlt, hcmp, hprev⟩ := ih hfr
        refine ⟨by simpa using hlt, by simpa using hcmp, ?_⟩
        intro j hj
        cases j with
        | zero =>
            rw [List.getD_cons_zero]
            rw [Bool.not_eq_true] at hm
            exact hm
        | succ j =>
            rw [List.getD_cons_succ]
            exact hprev j (by omega)

/-- A failed master scan means no master tile compares equal. -/
lemma find_master_index_none {tiles : List Tile} {t : Tile}
    (h : find_master_index tiles t = none) :
    ∀ m ∈ tiles, compare_tiles m t = false := by
  induction tiles with
  | nil => simp
  | cons m rest ih =>
      rw [find_master_index] at h
      by_cases hm : compare_tiles m t
      · rw [if_pos hm] at h
        simp at h
      · rw [if_neg hm] at h
        rw [Option.map_eq_none'] at h
        intro x hx
        rw [List.mem_cons] at hx
        rcases hx with rfl | hx
        · rw [Bool.not_eq_true] at hm
          exact hm
        · exact ih h x hx

/-- Master invariant of the deduplication pass: dimensions are preserved,
one index is emitted per candidate, each emitted index is the 1-based
position of a master tile equal to the candidate, and the master list never
holds two equal tiles. -/
lemma extract_tiles_invariant (ts : Nat) (cands : List Tile)
    (hc : ∀ t ∈ cands, tile_dims ts t) :
    tiles_ok ts (extract_tiles cands).1 ∧
    (extract_tiles cands).2.length = cands.length ∧
    (∀ p, p < cands.length → ∃ i, i < (extract_tiles cands).1.length ∧
      (extract_tiles cands).2.getD p 0 = i + 1 ∧
      (extract_tiles cands).1.getD i [] = cands.getD p []) ∧
    (∀ i j, i < j → j < (extract_tiles cands).1.length →
      (extract_tiles cands).1.getD i [] ≠ (extract_tiles cands).1.getD j []) := by
  induction cands using List.reverseRecOn with
  | nil =>
      refine ⟨?_, rfl, ?_, ?_⟩
      · intro t ht
        simp [extract_tiles] at ht
      · intro p hp
        simp at hp
      · intro i j _ hj
        simp [extract_tiles] at hj
  | append_singleton cs c ih =>
      have hcs : ∀ t ∈ cs, tile_dims ts t := fun t ht => hc t (by simp [ht])
      have hcd : tile_dims ts c := hc c (by simp)
      obtain ⟨hok, hlen, hidx, hdist⟩ := ih hcs
      have hstep : extract_tiles (cs ++ [c]) = admit_tile (extract_tiles cs) c :=
        List.foldl_concat admit_tile ([], []) c cs
      set st := extract_tiles cs with hst
      cases hfind : find_master_index st.1 c with
      | some i =>
          obtain ⟨hilt, hicmp, _⟩ := find_master_index_some hfind
          have hieq : st.1.getD i [] = c :=
            (compare_tiles_iff_of_dims (hok _ (getD_mem_of_lt st.1 hilt [])) hcd).mp hicmp
          have hstate : extract_tiles (cs ++ [c]) = (st.1, st.2 ++ [i + 1]) := by
            rw [hstep]
            unfold admit_tile
            rw [hfind]
          rw [hstate]
          refine ⟨hok, by simpa using hlen, ?_, hdist⟩
          intro p hp
          rw [List.length_append, List.length_cons, List.length_nil] at hp
          rcases Nat.lt_or_ge p cs.length with hplt | hpge
          · obtain ⟨i0, hi0, hv, he⟩ := hidx p hplt
            exact ⟨i0, hi0, by rw [List.getD_append _ _ _ _ (by omega : p < st.2.length), hv],
              by rw [List.getD_append _ _ _ _ (by omega : p < cs.length), he]⟩
          · have hpe : p = cs.length := by omega
            subst hpe
            refine ⟨i, hilt, ?_, ?_⟩
            · rw [List.getD_append_right _ _ _ _ (by omega : st.2.length ≤ cs.length), hlen]
              simp
            · rw [List.getD_append_right _ _ _ _ (le_refl cs.length)]
              simpa using hieq
      | none =>
          have hnone := find_master_index_none hfind
          have hstate : extract_tiles (cs ++ [c]) = (st.1 ++ [c], st.2 ++ [st.1.length + 1]) := by
            rw [hstep]
            unfold admit_tile
            rw [hfind]
          have hnotin : ∀ i, i < st.1.length → st.1.getD i [] ≠ c := by
            intro i hi heq
            have hmem := getD_mem_of_lt st.1 hi []
            have hfalse := hnone _ hmem
            have htrue := (compare_tiles_iff_of_dims (hok _ hmem) hcd).mpr heq
            rw [htrue] at hfalse
            simp at hfalse
          rw [hstate]
          refine ⟨?_, ?_, ?_, ?_⟩
          · intro t ht
            rw [List.mem_append] at ht
            rcases ht with ht | ht
            · exact hok t ht
            · rw [List.mem_singleton] at ht
              subst ht
              exact hcd
          · simp [hlen]
          · intro p hp
            rw [List.length_append, List.length_cons, List.length_nil] at hp
            rcases Nat.lt_or_ge p cs.length with hplt | hpge
            · obtain ⟨i0, hi0, hv, he⟩ := hidx p hplt
              refine ⟨i0, by rw [List.length_append]; omega, ?_, ?_⟩
              · rw [List.getD_append _ _ _ _ (by omega : p < st.2.length), hv]
              · rw [List.getD_append _ _ _ _ hi0,
                  List.getD_append _ _ _ _ (by omega : p < cs.length), he]
            · have hpe : p = cs.length := by omega
              subst hpe
              refine ⟨st.1.length, by simp, ?_, ?_⟩
              · rw [List.getD_append_right _ _ _ _ (by omega : st.2.length ≤ cs.length), hlen]
                simp
              · rw [List.getD_append_right _ _ _ _ (le_refl st.1.length),
                  List.getD_append_right _ _ _ _ (le_refl cs.length)]
                simp
          · intro i j hij hj
            rw [List.length_append, List.length_cons, List.length_nil] at hj
            rcases Nat.lt_or_ge j st.1.length with hjlt | hjge
            · rw [List.getD_append _ _ _ _ (by omega : i < st.1.length),
                List.getD_append _ _ _ _ hjlt]
              exact hdist i j hij hjlt
            · have hje : j = st.1.length := by omega
              subst hje
              rw [List.getD_append _ _ _ _ (by omega : i < st.1.length),
                List.getD_append_right _ _ _ _ (le_refl st.1.length)]
              simpa using hnotin i (by omega)

/-! ## Structure of the candidate list -/

/-- Length of a tile row slice inside the image width. -/
lemma tile_row_slice_length (ts j tw : Nat) (row : List Nat)
    (hrow : row.length = tw * (ts * 3)) (hj : j < tw) :
    (tile_row_slice ts j row).length = ts * 3 := by
  unfold tile_row_slice
  rw [List.length_take, List.length_drop, hrow]
  have h1 : (j + 1) * (ts * 3) ≤ tw * (ts * 3) := Nat.mul_le_mul_right _ (by omega)
  have h2 : (j + 1) * (ts * 3) = j * (ts * 3) + ts * 3 := by ring
  omega

/-- A band inside the image height has exactly `tile_size` rows. -/
lemma image_band_length {image : List (List Nat)} {ts th b : Nat}
    (him : image.length = th * ts) (hb : b < th) :
    (image_band image ts b).length = ts := by
  unfold image_band
  rw [List.length_take, List.length_drop, him]
  have h1 : (b + 1) * ts ≤ th * ts := Nat.mul_le_mul_right _ (by omega)
  have h2 : (b + 1) * ts = b * ts + ts := by ring
  omega

/-- Band rows are image rows. -/
lemma image_band_mem {image : List (List Nat)} {ts b : Nat} {r : List Nat}
    (h : r ∈ image_band image ts b) : r ∈ image :=
  List.mem_of_mem_drop (List.mem_of_mem_take h)

/-- Tiles cut from a well-sized image have the nominal dimensions. -/
lemma make_tile_dims {image : List (List Nat)} {ts tw th b j : Nat}
    (him : image.length = th * ts)
    (hrows : ∀ r ∈ image, r.length = tw * (ts * 3))
    (hb : b < th) (hj : j < tw) :
    tile_dims ts (make_tile (image_band image ts b) ts j) := by
  constructor
  · unfold make_tile
    rw [List.length_map]
    exact image_band_length him hb
  · intro r hr
    unfold make_tile at hr
    rw [List.mem_map] at hr
    obtain ⟨row, hrow, hre⟩ := hr
    subst hre
    exact tile_row_slice_length ts j tw row (hrows row (image_band_mem hrow)) hj

/-- There is one candidate per grid cell. -/
lemma tile_candidates_length (image : List (List Nat)) (ts tw th : Nat) :
    (tile_candidates image ts tw th).length = th * tw := by
  unfold tile_candidates
  exact length_flatMap_range_const tw th _ (fun b _ => by
    unfold band_tiles
    rw [List.length_map, List.length_range])

/-- The candidate at row-major position `b * tw + j` is the `(b, j)` grid
cell's tile. -/
lemma tile_candidates_getD {image : List (List Nat)} {ts tw th b j : Nat}
    (hb : b < th) (hj : j < tw) :
    (tile_candidates image ts tw th).getD (b * tw + j) []
      = make_tile (image_band image ts b) ts j := by
  unfold tile_candidates
  rw [getD_flatMap_range_const tw [] th _ (fun x _ => by
    unfold band_tiles
    rw [List.length_map, List.length_range]) b j hb hj]
  unfold band_tiles
  rw [getD_map_lt (make_tile (image_band image ts b) ts) (List.range tw)
      (by rw [List.length_range]; exact hj) [] 0]
  congr 1
  rw [List.getD_eq_getElem _ _ (by rw [List.length_range]; exact hj)]
  simp

/-- All candidates of a well-sized image have the nominal dimensions. -/
lemma tile_candidates_dims {image : List (List Nat)} {ts tw th : Nat}
    (him : image.length = th * ts)
    (hrows : ∀ r ∈ image, r.length = tw * (ts * 3)) :
    ∀ t ∈ tile_candidates image ts tw th, tile_dims ts t := by
  intro t ht
  unfold tile_candidates at ht
  rw [List.mem_flatMap] at ht
  obtain ⟨b, hb, ht⟩ := ht
  rw [List.mem_range] at hb
  unfold band_tiles at ht
  rw [List.mem_map] at ht
  obtain ⟨j, hj, hte⟩ := ht
  rw [List.mem_range] at hj
  subst hte
  exact make_tile_dims him hrows hb hj

/-- Core reconstruction result: the deduplicated tiles and indices of a
well-sized image reassemble the image exactly. -/
lemma reconstruct_extract (image : List (List Nat)) (ts tw th : Nat)
    (him : image.length = th * ts)
    (hrows : ∀ r ∈ image, r.length = tw * (ts * 3)) :
    reconstruct (extract_tiles (tile_candidates image ts tw th)).1
      (extract_tiles (tile_candidates image ts tw th)).2 ts tw th = image := by
  obtain ⟨hok, hlen, hidx, _⟩ :=
    extract_tiles_invariant ts (tile_candidates image ts tw th)
      (tile_candidates_dims him hrows)
  set st := extract_tiles (tile_candidates image ts tw th) with hst
  unfold reconstruct
  have himg : (List.range th).flatMap (fun b => image_band image ts b) = image := by
    unfold image_band
    exact flatMap_range_chunks ts th image him
  rw [← himg]
  apply flatMap_congr_mem
  intro b hb
  rw [List.mem_range] at hb
  have hband_len : (image_band image ts b).length = ts := image_band_length him hb
  have hexp : image_band image ts b
      = (List.range ts).map (fun r => (image_band image ts b).getD r []) := by
    conv_lhs => rw [← map_getD_range (image_band image ts b) []]
    rw [hband_len]
  rw [hexp]
  apply List.map_congr_left
  intro r hr
  rw [List.mem_range] at hr
  have hrow_mem : (image_band image ts b).getD r [] ∈ image :=
    image_band_mem (getD_mem_of_lt _ (by rw [hband_len]; exact hr) [])
  have hrow_len : ((image_band image ts b).getD r []).length = tw * (ts * 3) :=
    hrows _ hrow_mem
  have hchunk := flatMap_range_chunks (ts * 3) tw ((image_band image ts b).getD r []) hrow_len
  rw [← hchunk]
  apply flatMap_congr_mem
  intro j hj
  rw [List.mem_range] at hj
  have hp : b * tw + j < th * tw := by
    have h1 : (b + 1) * tw ≤ th * tw := Nat.mul_le_mul_right _ (by omega)
    have h2 : (b + 1) * tw = b * tw + tw := by ring
    omega
  obtain ⟨i, hilt, hv, he⟩ := hidx (b * tw + j)
    (by rw [tile_candidates_length]; exact hp)
  rw [hv]
  simp only [Nat.add_sub_cancel]
  rw [he, tile_candidates_getD hb hj]
  unfold make_tile
  rw [getD_map_lt (tile_row_slice ts j) _ (by rw [hband_len]; exact hr) [] []]
  rfl

/-! ## SheetPacker (`get_tile_sheet_specs`, lines 271–303,
`output_tiles_to_sheets`, lines 236–269) -/

/-- Capacity of a square sheet of width `w` for tiles of size `ts`:
`int(math.pow(cur_sheet_width / tile_size, 2))` (lines 285, 254, 405) with
Python-2 integer division; the float round trip is exact at these
magnitudes. -/
def sheet_capacity (ts w : Nat) : Nat := (w / ts) ^ 2

/-- The sheet-table building loop of lines 282–286: from
`max_sheet_width` halving down while `cur_sheet_width >= min_sheet_width`,
collecting `(width, capacity)` pairs highest to lowest.  The loop is
structurally encoded with a fuel argument; since the width at least halves
each iteration, `fuel = max_sheet_width` is enough whenever
`1 ≤ min_sheet_width` (with `min_sheet_width = 0` the Python loop never
terminates; all uses here have positive widths). -/
def build_tiles_table (ts min_sheet_width : Nat) : Nat → Nat → List (Nat × Nat)
  | 0, _ => []
  | fuel + 1, cur =>
      if min_sheet_width ≤ cur then
        (cur, sheet_capacity ts cur) :: build_tiles_table ts min_sheet_width fuel (cur / 2)
      else []

/-- Sheet choice of one loop iteration (lines 291–298): if the remaining
count exceeds the first (largest) table entry's capacity take that entry;
otherwise start from the last (smallest) entry and scan the whole table,
keeping the last entry whose capacity still covers the remaining count.
`tiles_table[0]` on an empty table raises `IndexError` in Python; the
embedding totalises it with a `headD`/`getLastD` default (never exercised:
the callers build non-empty tables). -/
def pick_sheet (table : List (Nat × Nat)) (left : Int) : Nat × Nat :=
  if left > ((table.headD (0, 0)).2 : Int) then table.headD (0, 0)
  else table.foldl (fun chosen t => if ((t.2 : Int) ≥ left) then t else chosen)
    (table.getLastD (0, 0))

/-- The consuming loop of lines 288–302: while tiles remain, pick a sheet,
subtract its capacity (the count may go negative, hence `Int`) and append
its width.  The loop is encoded with a fuel argument: `none` means the fuel
was exhausted with tiles still remaining.  `fuel = num_tiles` is enough
whenever the largest capacity is positive (proved below); when every
capacity is zero the Python loop never terminates and the embedding yields
`none` for every fuel. -/
def sheet_loop (table : List (Nat × Nat)) : Nat → Int → List Nat → Option (List Nat)
  | 0, left, out => if left ≤ 0 then some out else none
  | fuel + 1, left, out =>
      if left ≤ 0 then some out
      else sheet_loop table fuel (left - ((pick_sheet table left).2 : Int))
        (out ++ [(pick_sheet table left).1])

/-- `get_tile_sheet_specs` (lines 271–303): build the sheet table for widths
from `max_sheet_width` down to `min_sheet_width`, then greedily consume
`num_tiles` tiles.  The Python defaults are `min_sheet_width = 64`,
`max_sheet_width = 512`. -/
def get_tile_sheet_specs (num_tiles ts min_sheet_width max_sheet_width : Nat) :
    Option (List Nat) :=
  sheet_loop (build_tiles_table ts min_sheet_width max_sheet_width max_sheet_width)
    num_tiles (num_tiles : Int) []

/-- The per-sheet tile counts of `output_tiles_to_sheets` (lines 251–268):
walking the planned widths, each sheet receives
`min(capacity, num_tiles_left)` tiles (`num_tiles_left` is
`len(self.tiles) - cur_out_tile`, an `Int` since Python would let it go
negative on an overfull plan). -/
def sheet_fill_counts (total ts : Nat) : Int → List Nat → List Int
  | _, [] => []
  | cur, w :: rest =>
      let cap : Int := (sheet_capacity ts w : Nat)
      let left : Int := (total : Int) - cur
      let on_sheet : Int := if cap > left then left else cap
      on_sheet :: sheet_fill_counts total ts (cur + on_sheet) rest

/-- The tile slices handed to `output_tiles_to_sheet` by the loop of lines
251–268: `self.tiles[cur_out_tile : cur_out_tile + num_tiles_on_sheet]`. -/
def sheet_tile_slices (tiles : List Tile) (ts : Nat) : Int → List Nat → List (List Tile)
  | _, [] => []
  | cur, w :: rest =>
      let cap : Int := (sheet_capacity ts w : Nat)
      let left : Int := (tiles.length : Int) - cur
      let on_sheet : Int := if cap > left then left else cap
      ((tiles.drop cur.toNat).take on_sheet.toNat)
        :: sheet_tile_slices tiles ts (cur + on_sheet) rest

/-! ## Analysis of the sheet table and sheet choice -/

/-- Sheet capacity is monotone in the width. -/
lemma sheet_capacity_mono {ts a b : Nat} (h : a ≤ b) :
    sheet_capacity ts a ≤ sheet_capacity ts b :=
  Nat.pow_le_pow_left (Nat.div_le_div_right h) 2

/-- Every table entry records its own capacity and lies between the
configured widths. -/
lemma build_tiles_table_mem {ts minW : Nat} :
    ∀ (fuel cur : Nat), ∀ e ∈ build_tiles_table ts minW fuel cur,
      e.2 = sheet_capacity ts e.1 ∧ minW ≤ e.1 ∧ e.1 ≤ cur := by
  intro fuel
  induction fuel with
  | zero =>
      intro cur e he
      simp [build_tiles_table] at he
  | succ f ih =>
      intro cur e he
      rw [build_tiles_table] at he
      by_cases hg : minW ≤ cur
      · rw [if_pos hg] at he
        rw [List.mem_cons] at he
        rcases he with rfl | he
        · exact ⟨rfl, hg, le_refl _⟩
        · obtain ⟨h1, h2, h3⟩ := ih (cur / 2) e he
          exact ⟨h1, h2, by omega⟩
      · rw [if_neg hg] at he
        simp at he

/-- The sheet table is strictly decreasing in width and non-increasing in
capacity (for a positive minimum width). -/
lemma build_tiles_table_pairwise {ts minW : Nat} (hmin : 1 ≤ minW) :
    ∀ (fuel cur : Nat),
      List.Pairwise (fun a b : Nat × Nat => b.1 < a.1 ∧ b.2 ≤ a.2)
        (build_tiles_table ts minW fuel cur) := by
  intro fuel
  induction fuel with
  | zero => intro cur; simp [build_tiles_table]
  | succ f ih =>
      intro cur
      rw [build_tiles_table]
      by_cases hg : minW ≤ cur
      · rw [if_pos hg]
        refine List.Pairwise.cons ?_ (ih (cur / 2))
        intro e he
        obtain ⟨h1, h2, h3⟩ := build_tiles_table_mem f (cur / 2) e he
        refine ⟨by omega, ?_⟩
        rw [h1]
        exact le_trans (sheet_capacity_mono (by omega)) (le_refl _)
      · rw [if_neg hg]
        simp

/-- For `1 ≤ min ≤ max` the table starts with the `max`-width entry. -/
lemma build_tiles_table_head {ts minW maxW : Nat} (h1 : 1 ≤ minW) (h2 : minW ≤ maxW) :
    ∃ rest, build_tiles_table ts minW maxW maxW
      = (maxW, sheet_capacity ts maxW) :: rest := by
  cases maxW with
  | zero => omega
  | succ m =>
      rw [build_tiles_table, if_pos (by omega)]
      exact ⟨_, rfl⟩

/-- A `getLastD` of a non-empty list is a member. -/
lemma getLastD_mem {α : Type} : ∀ (l : List α) (d : α), l ≠ [] → l.getLastD d ∈ l := by
  intro l
  induction l with
  | nil => intro d h; exact absurd rfl h
  | cons a tl ih =>
      intro d _
      rw [List.getLastD_cons]
      rcases eq_or_ne tl [] with h0 | h0
      · subst h0
        simp
      · exact List.mem_cons_of_mem a (ih a h0)

/-- In a width-strictly-decreasing list the last element has the least
width. -/
lemma getLastD_fst_le : ∀ (l : List (Nat × Nat)) (c : Nat × Nat),
    List.Pairwise (fun a b : Nat × Nat => b.1 < a.1 ∧ b.2 ≤ a.2) l →
    ∀ t ∈ l, (l.getLastD c).1 ≤ t.1 := by
  intro l
  induction l with
  | nil => intro c _ t ht; simp at ht
  | cons a tl ih =>
      intro c hpw t ht
      rw [List.getLastD_cons]
      rw [List.mem_cons] at ht
      rw [List.pairwise_cons] at hpw
      rcases ht with rfl | ht
      · rcases eq_or_ne tl [] with h0 | h0
        · subst h0
          simp
        · exact le_of_lt ((hpw.1 _ (getLastD_mem tl t h0)).1)
      · exact ih a hpw.2 t ht

/-- Folding the scan of lines 295–298 over entries that all fail the
capacity test leaves the accumulator unchanged. -/
lemma foldl_pick_all_fail {left : Int} :
    ∀ (l : List (Nat × Nat)) (c : Nat × Nat),
      (∀ t ∈ l, ¬((t.2 : Int) ≥ left)) →
      l.foldl (fun chosen t => if ((t.2 : Int) ≥ left) then t else chosen) c = c := by
  intro l
  induction l with
  | nil => intro c _; rfl
  | cons a tl ih =>
      intro c hf
      rw [List.foldl_cons, if_neg (hf a (by simp))]
      exact ih c (fun t ht => hf t (List.mem_cons_of_mem a ht))

/-- Folding the scan of lines 295–298 over entries that all pass the
capacity test returns the last entry. -/
lemma foldl_pick_all_pass {left : Int} :
    ∀ (l : List (Nat × Nat)) (c : Nat × Nat),
      (∀ t ∈ l, (t.2 : Int) ≥ left) →
      l.foldl (fun chosen t => if ((t.2 : Int) ≥ left) then t else chosen) c
        = l.getLastD c := by
  intro l
  induction l with
  | nil => intro c _; rfl
  | cons a tl ih =>
      intro c hf
      rw [List.foldl_cons, if_pos (hf a (by simp)), List.getLastD_cons]
      exact ih a (fun t ht => hf t (List.mem_cons_of_mem a ht))

/-- The head of a `dropWhile` fails the predicate. -/
lemma dropWhile_head_false {α : Type} (p : α → Bool) :
    ∀ (l : List α) (d : α) (rest : List α),
      l.dropWhile p = d :: rest → p d = false := by
  intro l
  induction l with
  | nil => intro d rest h; simp [List.dropWhile] at h
  | cons a tl ih =>
      intro d rest h
      rw [List.dropWhile_cons] at h
      by_cases ha : p a = true
      · rw [if_pos ha] at h
        exact ih d rest h
      · rw [if_neg ha] at h
        cases h
        rw [Bool.not_eq_true] at ha
        exact ha

/-- Characterisation of the else-branch of `pick_sheet` on a sorted table
whose first entry covers the remaining count: the scan of lines 294–298
keeps the last (= smallest-width) entry whose capacity still covers the
count. -/
lemma pick_sheet_else {table : List (Nat × Nat)} {left : Int}
    (hpw : List.Pairwise (fun a b : Nat × Nat => b.1 < a.1 ∧ b.2 ≤ a.2) table)
    (hne : table ≠ [])
    (hhead : ¬ left > ((table.headD (0, 0)).2 : Int)) :
    pick_sheet table left ∈ table ∧
    ((pick_sheet table left).2 : Int) ≥ left ∧
    ∀ t ∈ table, (t.2 : Int) ≥ left → (pick_sheet table left).1 ≤ t.1 := by
  unfold pick_sheet
  rw [if_neg hhead]
  set Q : Nat × Nat → Bool := fun t => decide ((t.2 : Int) ≥ left) with hQ
  set last := table.getLastD (0, 0) with hlast
  obtain ⟨e, tl, hte⟩ : ∃ e tl, table = e :: tl := by
    cases table with
    | nil => exact absurd rfl hne
    | cons e tl => exact ⟨e, tl, rfl⟩
  have hQe : Q e = true := by
    rw [hQ]
    apply decide_eq_true
    rw [hte] at hhead
    simp only [List.headD_eq_head?, List.head?_cons, Option.getD_some] at hhead
    omega
  have hA_ne : table.takeWhile Q ≠ [] := by
    rw [hte, List.takeWhile_cons, if_pos hQe]
    simp
  have hallA : ∀ t ∈ table.takeWhile Q, (t.2 : Int) ≥ left := by
    intro t ht
    have := List.mem_takeWhile_imp ht
    rw [hQ] at this
    exact of_decide_eq_true this
  have hallB : ∀ t ∈ table.dropWhile Q, ¬((t.2 : Int) ≥ left) := by
    cases hB : table.dropWhile Q with
    | nil => intro t ht; simp at ht
    | cons d rest =>
        have hd : Q d = false := dropWhile_head_false Q table d rest hB
        have hdlt : (d.2 : Int) < left := by
          rw [hQ] at hd
          have := of_decide_eq_false hd
          omega
        intro t ht
        rw [List.mem_cons] at ht
        rcases ht with rfl | ht
        · omega
        · have hpwB : List.Pairwise (fun a b : Nat × Nat => b.1 < a.1 ∧ b.2 ≤ a.2)
              (d :: rest) := by
            rw [← hB]
            exact List.Pairwise.sublist (List.dropWhile_sublist Q) hpw
          rw [List.pairwise_cons] at hpwB
          have := (hpwB.1 t ht).2
          have hcast : (t.2 : Int) ≤ (d.2 : Int) := by exact_mod_cast this
          omega
  have hfold : table.foldl (fun chosen t => if ((t.2 : Int) ≥ left) then t else chosen) last
      = (table.takeWhile Q).getLastD last := by
    conv_lhs => rw [← List.takeWhile_append_dropWhile Q table]
    rw [List.foldl_append, foldl_pick_all_pass (table.takeWhile Q) last hallA,
      foldl_pick_all_fail (table.dropWhile Q) _ hallB]
  rw [hfold]
  have hrmemA : (table.takeWhile Q).getLastD last ∈ table.takeWhile Q :=
    getLastD_mem _ last hA_ne
  have hrmem : (table.takeWhile Q).getLastD last ∈ table :=
    (List.takeWhile_sublist Q).subset hrmemA
  refine ⟨hrmem, hallA _ hrmemA, ?_⟩
  intro t ht htc
  have htA : t ∈ table.takeWhile Q := by
    have hts : t ∈ table.takeWhile Q ++ table.dropWhile Q := by
      rw [List.takeWhile_append_dropWhile]
      exact ht
    rw [List.mem_append] at hts
    rcases hts with h | h
    · exact h
    · exact absurd htc (hallB t h)
  exact getLastD_fst_le (table.takeWhile Q) last
    (List.Pairwise.sublist (List.takeWhile_sublist Q) hpw) t htA

/-- The head of the built sheet table, as a `headD`. -/
lemma build_tiles_table_headD {ts minW maxW : Nat} (h1 : 1 ≤ minW) (h2 : minW ≤ maxW) :
    (build_tiles_table ts minW maxW maxW).headD (0, 0)
      = (maxW, sheet_capacity ts maxW) := by
  obtain ⟨rest, hr⟩ := build_tiles_table_head h1 h2
  rw [hr]
  rfl

/-- The built sheet table is non-empty. -/
lemma build_tiles_table_ne {ts minW maxW : Nat} (h1 : 1 ≤ minW) (h2 : minW ≤ maxW) :
    build_tiles_table ts minW maxW maxW ≠ [] := by
  obtain ⟨rest, hr⟩ := build_tiles_table_head h1 h2
  rw [hr]
  simp

/-- The chosen sheet is always an entry of the built table. -/
lemma pick_sheet_mem_table {ts minW maxW : Nat} {left : Int}
    (h1 : 1 ≤ minW) (h2 : minW ≤ maxW) :
    pick_sheet (build_tiles_table ts minW maxW maxW) left
      ∈ build_tiles_table ts minW maxW maxW := by
  by_cases hb : left > (((build_tiles_table ts minW maxW maxW).headD (0, 0)).2 : Int)
  · unfold pick_sheet
    rw [if_pos hb]
    obtain ⟨rest, hr⟩ := build_tiles_table_head h1 h2
    rw [hr]
    simp
  · exact (pick_sheet_else (build_tiles_table_pairwise h1 maxW maxW)
      (build_tiles_table_ne h1 h2) hb).1

/-- While tiles remain, the chosen sheet has positive capacity as soon as
the largest sheet does. -/
lemma pick_sheet_cap_pos {ts minW maxW : Nat} {left : Int}
    (h1 : 1 ≤ minW) (h2 : minW ≤ maxW)
    (hcap : 1 ≤ sheet_capacity ts maxW) (hl : 1 ≤ left) :
    1 ≤ (pick_sheet (build_tiles_table ts minW maxW maxW) left).2 := by
  by_cases hb : left > (((build_tiles_table ts minW maxW maxW).headD (0, 0)).2 : Int)
  · unfold pick_sheet
    rw [if_pos hb, build_tiles_table_headD h1 h2]
    exact hcap
  · have hcov := (pick_sheet_else (build_tiles_table_pairwise h1 maxW maxW)
      (build_tiles_table_ne h1 h2) hb).2.1
    omega

/-- When no tiles remain the loop stops with the accumulated output,
whatever the fuel. -/
lemma sheet_loop_done {table : List (Nat × Nat)} {left : Int} {out : List Nat}
    (h : left ≤ 0) : ∀ fuel, sheet_loop table fuel left out = some out := by
  intro fuel
  cases fuel with
  | zero => rw [sheet_loop, if_pos h]
  | succ f => rw [sheet_loop, if_pos h]

/-- Fuel `num_tiles` suffices for the consuming loop whenever the largest
sheet holds at least one tile: every iteration either finishes or lowers the
remaining count by at least one. -/
lemma sheet_loop_terminates {ts minW maxW : Nat}
    (h1 : 1 ≤ minW) (h2 : minW ≤ maxW) (hcap : 1 ≤ sheet_capacity ts maxW) :
    ∀ (fuel : Nat) (left : Int) (out : List Nat), left ≤ (fuel : Int) →
      ∃ res, sheet_loop (build_tiles_table ts minW maxW maxW) fuel left out
        = some res := by
  intro fuel
  induction fuel with
  | zero =>
      intro left out hle
      exact ⟨out, sheet_loop_done (by exact_mod_cast hle) 0⟩
  | succ f ih =>
      intro left out hle
      by_cases h0 : left ≤ 0
      · exact ⟨out, sheet_loop_done h0 (f + 1)⟩
      · rw [sheet_loop, if_neg h0]
        by_cases hb : left > (((build_tiles_table ts minW maxW maxW).headD (0, 0)).2 : Int)
        · have hch : (pick_sheet (build_tiles_table ts minW maxW maxW) left).2
              = sheet_capacity ts maxW := by
            unfold pick_sheet
            rw [if_pos hb, build_tiles_table_headD h1 h2]
          apply ih
          rw [hch]
          push_cast at hle ⊢
          omega
        · have hcov := (pick_sheet_else (build_tiles_table_pairwise h1 maxW maxW)
            (build_tiles_table_ne h1 h2) hb).2.1
          apply ih
          push_cast at hle ⊢
          omega

/-- Coverage invariant of the consuming loop: a successful run starting with
a positive remaining count appends a non-empty list of widths whose
capacities sum to at least the count, the chosen sheets short of the last
one do not yet cover the count, and every chosen sheet has positive
capacity. -/
lemma sheet_loop_coverage {ts minW maxW : Nat}
    (h1 : 1 ≤ minW) (h2 : minW ≤ maxW) (hcap : 1 ≤ sheet_capacity ts maxW) :
    ∀ (fuel : Nat) (left : Int) (out res : List Nat), 0 < left →
      sheet_loop (build_tiles_table ts minW maxW maxW) fuel left out = some res →
      ∃ suffix, res = out ++ suffix ∧ suffix ≠ [] ∧
        left ≤ (suffix.map (fun w => (sheet_capacity ts w : Int))).sum ∧
        (suffix.dropLast.map (fun w => (sheet_capacity ts w : Int))).sum < left ∧
        ∀ w ∈ suffix, 1 ≤ sheet_capacity ts w := by
  intro fuel
  induction fuel with
  | zero =>
      intro left out res hpos hres
      rw [sheet_loop, if_neg (by omega)] at hres
      exact absurd hres (by simp)
  | succ f ih =>
      intro left out res hpos hres
      rw [sheet_loop, if_neg (by omega)] at hres
      set c := pick_sheet (build_tiles_table ts minW maxW maxW) left with hc
      have hcmem : c ∈ build_tiles_table ts minW maxW maxW := by
        rw [hc]
        exact pick_sheet_mem_table h1 h2
      obtain ⟨hce, _, _⟩ := build_tiles_table_mem maxW maxW c hcmem
      have hcpos : 1 ≤ c.2 := by
        rw [hc]
        exact pick_sheet_cap_pos h1 h2 hcap (by omega)
      have hcast : (sheet_capacity ts c.1 : Int) = (c.2 : Int) := by
        rw [hce]
      by_cases hnext : left - (c.2 : Int) ≤ 0
      · rw [sheet_loop_done hnext f] at hres
        have hreseq : res = out ++ [c.1] := (Option.some.inj hres).symm
        refine ⟨[c.1], hreseq, by simp, ?_, ?_, ?_⟩
        · rw [List.map_singleton, List.sum_singleton, hcast]
          omega
        · simp
          omega
        · intro w hw
          rw [List.mem_singleton] at hw
          subst hw
          omega
      · obtain ⟨suffix, hse, hsne, hsum, hdl, hcaps⟩ := ih _ _ _ (by omega) hres
        refine ⟨c.1 :: suffix, by rw [hse]; simp, by simp, ?_, ?_, ?_⟩
        · rw [List.map_cons, List.sum_cons, hcast]
          omega
        · rw [List.dropLast_cons_of_ne_nil hsne, List.map_cons, List.sum_cons, hcast]
          omega
        · intro w hw
          rw [List.mem_cons] at hw
          rcases hw with rfl | hw
          · omega
          · exact hcaps w hw

/-! ## IndexCodec (`get_base_64_index_string`, lines 360–370,
`get_tile_indices`, lines 324–358, `output_tmx_for_tiles`, lines 372–454) -/

/-- The base64 alphabet as ASCII codes (the external `binascii` codec used
by Python's `str.encode('base64')` / `str.decode('base64')`). -/
def b64alpha (s : Nat) : Nat :=
  if s < 26 then 65 + s
  else if s < 52 then 97 + (s - 26)
  else if s < 62 then 48 + (s - 52)
  else if s = 62 then 43
  else 47

/-- Inverse base64 alphabet; `none` on characters outside the alphabet. -/
def b64unalpha (c : Nat) : Option Nat :=
  if 65 ≤ c ∧ c ≤ 90 then some (c - 65)
  else if 97 ≤ c ∧ c ≤ 122 then some (c - 97 + 26)
  else if 48 ≤ c ∧ c ≤ 57 then some (c - 48 + 52)
  else if c = 43 then some 62
  else if c = 47 then some 63
  else none

/-- Base64 encoding of a byte list, three bytes to four characters with
`=` (61) padding.  The Python-2 codec additionally wraps its output in
76-character lines; the line breaks are ignored by the decoder and carry no
information, so the embedding omits them. -/
def b64encode : List Nat → List Nat
  | [] => []
  | [a] => [b64alpha (a / 4), b64alpha (a % 4 * 16), 61, 61]
  | [a, b] => [b64alpha (a / 4), b64alpha (a % 4 * 16 + b / 16), b64alpha (b % 16 * 4), 61]
  | a :: b :: c :: rest =>
      b64alpha (a / 4) :: b64alpha (a % 4 * 16 + b / 16)
        :: b64alpha (b % 16 * 4 + c / 64) :: b64alpha (c % 64) :: b64encode rest

/-- Base64 decoding, four characters to three bytes, handling the two
padded final groups; `none` on malformed input. -/
def b64decode : List Nat → Option (List Nat)
  | [] => some []
  | c1 :: c2 :: c3 :: c4 :: rest =>
      (b64unalpha c1).bind (fun s1 =>
      (b64unalpha c2).bind (fun s2 =>
      if c3 = 61 ∧ c4 = 61 ∧ rest = [] then some [s1 * 4 + s2 / 16]
      else (b64unalpha c3).bind (fun s3 =>
        if c4 = 61 ∧ rest = [] then
          some [s1 * 4 + s2 / 16, s2 % 16 * 16 + s3 / 4]
        else (b64unalpha c4).bind (fun s4 =>
          (b64decode rest).map (fun tail =>
            (s1 * 4 + s2 / 16) :: (s2 % 16 * 16 + s3 / 4)
              :: (s3 % 4 * 64 + s4) :: tail)))))
  | _ => none

/-- Modelled from the spec: gzip compression (`zlib` with `16 + MAX_WBITS`,
line 348) is an external library collaborator, not part of this repository.
It is modelled as a reversible coding that prefixes the two gzip magic
bytes `31, 139`, which the decompressor demands — `zlib.decompress` with a
gzip window raises `zlib.error` on a stream without the gzip header, and
that header check is the only property of gzip the program's control flow
depends on. -/
def gzip_compress (b : List Nat) : List Nat := 31 :: 139 :: b

/-- Modelled from the spec: inverse of `gzip_compress`, failing exactly on
input that does not start with the gzip magic bytes. -/
def gzip_decompress (b : List Nat) : Option (List Nat) :=
  match b with
  | 31 :: 139 :: rest => some rest
  | _ => none

/-- `struct.pack("<L", n)` (line 368): four little-endian bytes.  Python
raises `struct.error` for `n ≥ 2^32`; the embedding is total via `%` and the
theorems about it assume `n < 2^32`. -/
def pack_u32 (n : Nat) : List Nat :=
  [n % 256, n / 256 % 256, n / 65536 % 256, n / 16777216 % 256]

/-- The packed index buffer of `get_base_64_index_string` (lines 366–368):
the 4-byte packings concatenated in sequence order. -/
def get_packed_indices (tile_indices : List Nat) : List Nat :=
  tile_indices.flatMap pack_u32

/-- `struct.unpack("<L", b)` (line 355) on a 4-byte chunk. -/
def unpack_u32 (b : List Nat) : Nat :=
  b.getD 0 0 + 256 * b.getD 1 0 + 65536 * b.getD 2 0 + 16777216 * b.getD 3 0

/-- `get_base_64_index_string` (lines 360–370): pack the tile indices as
little-endian 32-bit integers and base64-encode the buffer. -/
def get_base_64_index_string (tile_indices : List Nat) : List Nat :=
  b64encode (get_packed_indices tile_indices)

/-- Failure modes of `get_tile_indices`: a missing `encoding`/`compression`
attribute (Python `KeyError` at lines 337–338), a declared scheme other than
base64+gzip (the `quit()` at line 341), malformed base64
(`binascii.Error`), or a non-gzip stream (`zlib.error` at line 348). -/
inductive DecodeError
  | missingAttr
  | unsupportedFormat
  | badBase64
  | badGzip
deriving DecidableEq

/-- One `<layer><data>` element of a map-description document: the optional
`encoding` and `compression` attributes and the (stripped) character data. -/
structure LayerData where
  encoding : Option String
  compression : Option String
  text : List Nat
deriving DecidableEq

/-- The per-layer body of `get_tile_indices` (lines 335–356): read the two
attributes, insist on base64+gzip, base64-decode, gzip-decompress, then
unpack `len / 4` little-endian 32-bit integers (Python-2 floor division at
line 351) from the front of the buffer. -/
def decode_layer (ld : LayerData) : Except DecodeError (List Nat) :=
  match ld.encoding with
  | none => .error .missingAttr
  | some enc =>
      match ld.compression with
      | none => .error .missingAttr
      | some comp =>
          if enc ≠ "base64" ∨ comp ≠ "gzip" then .error .unsupportedFormat
          else
            match b64decode ld.text with
            | none => .error .badBase64
            | some data_compressed =>
                match gzip_decompress data_compressed with
                | none => .error .badGzip
                | some decompressed_data =>
                    .ok ((List.range (decompressed_data.length / 4)).map (fun i =>
                      unpack_u32 ((decompressed_data.drop (i * 4)).take 4)))

/-- `get_tile_indices` (lines 324–358): the layers' index lists concatenated
in document order; any failing layer aborts the whole read. -/
def get_tile_indices : List LayerData → Except DecodeError (List Nat)
  | [] => .ok []
  | ld :: rest =>
      match decode_layer ld with
      | .error e => .error e
      | .ok ixs =>
          match get_tile_indices rest with
          | .error e => .error e
          | .ok more => .ok (ixs ++ more)

/-- The single `<layer><data>` element written by `output_tmx_for_tiles`
(lines 426–444): `encoding="base64"` is set at line 434, the `compression`
attribute is never set (line 435 is commented out), and the text is the
base64 index string. -/
def output_tmx_layer (tile_indices : List Nat) : LayerData :=
  { encoding := some "base64", compression := none,
    text := get_base_64_index_string tile_indices }

/-! ## Codec round-trip facts -/

/-- The base64 alphabet tables invert each other. -/
lemma b64unalpha_alpha : ∀ s, s < 64 → b64unalpha (b64alpha s) = some s := by decide

/-- No alphabet character is the padding character. -/
lemma b64alpha_ne_61 : ∀ s, s < 64 → b64alpha s ≠ 61 := by decide

/-- Base64 round trip on byte lists. -/
lemma b64decode_encode : ∀ l : List Nat, (∀ x ∈ l, x < 256) →
    b64decode (b64encode l) = some l := by
  intro l
  induction l using b64encode.induct with
  | case1 => intro _; rfl
  | case2 a =>
      intro h
      have ha : a < 256 := h a (by simp)
      have e1 := b64unalpha_alpha (a / 4) (by omega)
      have e2 := b64unalpha_alpha (a % 4 * 16) (by omega)
      rw [b64encode, b64decode, e1, e2]
      simp only [Option.some_bind]
      rw [if_pos (by simp)]
      have hx : a / 4 * 4 + (a % 4 * 16) / 16 = a := by omega
      rw [hx]
  | case3 a b =>
      intro h
      have ha : a < 256 := h a (by simp)
      have hb : b < 256 := h b (by simp)
      have e1 := b64unalpha_alpha (a / 4) (by omega)
      have e2 := b64unalpha_alpha (a % 4 * 16 + b / 16) (by omega)
      have e3 := b64unalpha_alpha (b % 16 * 4) (by omega)
      have n3 : b64alpha (b % 16 * 4) ≠ 61 := b64alpha_ne_61 _ (by omega)
      rw [b64encode, b64decode, e1, e2]
      simp only [Option.some_bind]
      rw [if_neg (by tauto), e3]
      simp only [Option.some_bind]
      rw [if_pos (by simp)]
      have hx : a / 4 * 4 + (a % 4 * 16 + b / 16) / 16 = a := by omega
      have hy : (a % 4 * 16 + b / 16) % 16 * 16 + (b % 16 * 4) / 4 = b := by omega
      rw [hx, hy]
  | case4 a b c rest ih =>
      intro h
      have ha : a < 256 := h a (by simp)
      have hb : b < 256 := h b (by simp)
      have hc : c < 256 := h c (by simp)
      have hrest : ∀ x ∈ rest, x < 256 := fun x hx => h x (by simp [hx])
      have e1 := b64unalpha_alpha (a / 4) (by omega)
      have e2 := b64unalpha_alpha (a % 4 * 16 + b / 16) (by omega)
      have e3 := b64unalpha_alpha (b % 16 * 4 + c / 64) (by omega)
      have e4 := b64unalpha_alpha (c % 64) (by omega)
      have n3 : b64alpha (b % 16 * 4 + c / 64) ≠ 61 := b64alpha_ne_61 _ (by omega)
      have n4 : b64alpha (c % 64) ≠ 61 := b64alpha_ne_61 _ (by omega)
      rw [b64encode, b64decode, e1, e2]
      simp only [Option.some_bind]
      rw [if_neg (by tauto), e3]
      simp only [Option.some_bind]
      rw [if_neg (by tauto), e4]
      simp only [Option.some_bind]
      rw [ih hrest]
      simp only [Option.map_some']
      have hx : a / 4 * 4 + (a % 4 * 16 + b / 16) / 16 = a := by omega
      have hy : (a % 4 * 16 + b / 16) % 16 * 16 + (b % 16 * 4 + c / 64) / 4 = b := by omega
      have hz : (b % 16 * 4 + c / 64) % 4 * 64 + c % 64 = c := by omega
      rw [hx, hy, hz]

/-- Packed bytes are bytes. -/
lemma pack_u32_lt (n : Nat) : ∀ x ∈ pack_u32 n, x < 256 := by
  intro x hx
  simp [pack_u32] at hx
  rcases hx with rfl | rfl | rfl | rfl <;> omega

/-- Little-endian 32-bit round trip. -/
lemma unpack_pack_u32 {n : Nat} (h : n < 4294967296) :
    unpack_u32 (pack_u32 n) = n := by
  simp [pack_u32, unpack_u32]
  omega

/-- The packed buffer holds four bytes per index. -/
lemma get_packed_indices_length (l : List Nat) :
    (get_packed_indices l).length = l.length * 4 :=
  length_flatMap_const pack_u32 4 (fun _ => rfl) l

/-- The packed buffer consists of bytes. -/
lemma get_packed_indices_lt (l : List Nat) :
    ∀ x ∈ get_packed_indices l, x < 256 := by
  intro x hx
  unfold get_packed_indices at hx
  rw [List.mem_flatMap] at hx
  obtain ⟨n, _, hxn⟩ := hx
  exact pack_u32_lt n x hxn

/-- Unpacking the packed buffer chunkwise recovers the index sequence. -/
lemma unpack_packed (l : List Nat) (h : ∀ n ∈ l, n < 4294967296) :
    (List.range ((get_packed_indices l).length / 4)).map (fun i =>
      unpack_u32 (((get_packed_indices l).drop (i * 4)).take 4)) = l := by
  rw [get_packed_indices_length]
  have h4 : l.length * 4 / 4 = l.length := by omega
  rw [h4]
  unfold get_packed_indices
  have hmap : ∀ i ∈ List.range l.length,
      unpack_u32 (((l.flatMap pack_u32).drop (i * 4)).take 4) = l.getD i 0 := by
    intro i hi
    rw [List.mem_range] at hi
    rw [drop_take_flatMap_const pack_u32 4 0 (fun _ => rfl) l i hi]
    exact unpack_pack_u32 (h _ (getD_mem_of_lt l hi 0))
  rw [List.map_congr_left hmap]
  exact map_getD_range l 0

/-- The gzip model round-trips. -/
lemma gzip_decompress_compress (b : List Nat) :
    gzip_decompress (gzip_compress b) = some b := rfl

/-- Decoding one layer that declares base64+gzip and carries a
gzip-compressed buffer of bytes. -/
lemma decode_layer_gzip (raw : List Nat) (h : ∀ x ∈ raw, x < 256) :
    decode_layer { encoding := some "base64", compression := some "gzip",
                   text := b64encode (gzip_compress raw) }
      = .ok ((List.range (raw.length / 4)).map (fun i =>
          unpack_u32 ((raw.drop (i * 4)).take 4))) := by
  have hbytes : ∀ x ∈ gzip_compress raw, x < 256 := by
    intro x hx
    unfold gzip_compress at hx
    rw [List.mem_cons] at hx
    rcases hx with rfl | hx
    · omega
    · rw [List.mem_cons] at hx
      rcases hx with rfl | hx
      · omega
      · exact h x hx
  unfold decode_layer
  simp only [if_neg (by simp : ¬(("base64" : String) ≠ "base64" ∨ ("gzip" : String) ≠ "gzip"))]
  rw [b64decode_encode _ hbytes]
  simp only [gzip_decompress_compress]

/-- A one-layer document decodes to its layer's indices. -/
lemma get_tile_indices_single {ld : LayerData} {ixs : List Nat}
    (h : decode_layer ld = .ok ixs) : get_tile_indices [ld] = .ok ixs := by
  rw [get_tile_indices, h, get_tile_indices]
  simp

/-- With `tile_size = 1024` every sheet of the default 512-to-64 table has
capacity `0`, so the consuming loop never lowers the remaining count: the
Python `while` loop of lines 290–301 diverges, and the fuel-encoded loop
returns `none` for every fuel. -/
lemma sheet_loop_zero_cap_none :
    ∀ (fuel : Nat) (acc : List Nat),
      sheet_loop (build_tiles_table 1024 64 512 512) fuel 1 acc = none := by
  intro fuel
  induction fuel with
  | zero =>
      intro acc
      rw [sheet_loop, if_neg (by omega)]
  | succ f ih =>
      intro acc
      rw [sheet_loop, if_neg (by omega)]
      have hpick : pick_sheet (build_tiles_table 1024 64 512 512) 1 = (512, 0) := by decide
      rw [hpick]
      norm_num
      exact ih (acc ++ [512])

/-- Along a planned width list whose proper prefixes never cover the tile
count and whose sheets all have positive capacity, every slice handed to
`output_tiles_to_sheet` is non-empty. -/
lemma sheet_tile_slices_ne_nil (tiles : List Tile) (ts : Nat) :
    ∀ (widths : List Nat) (cur : Int), 0 ≤ cur →
      (∀ w ∈ widths, 1 ≤ sheet_capacity ts w) →
      (widths.dropLast.map (fun w => (sheet_capacity ts w : Int))).sum
        < (tiles.length : Int) - cur →
      ∀ s ∈ sheet_tile_slices tiles ts cur widths, s ≠ [] := by
  intro widths
  induction widths with
  | nil =>
      intro cur _ _ _ s hs
      simp [sheet_tile_slices] at hs
  | cons w rest ih =>
      intro cur hcur hcaps hdl s hs
      simp only [sheet_tile_slices] at hs
      have hcapw : 1 ≤ sheet_capacity ts w := hcaps w (by simp)
      have hsum_nonneg : 0 ≤ (rest.dropLast.map (fun v => (sheet_capacity ts v : Int))).sum := by
        apply List.sum_nonneg
        intro x hx
        rw [List.mem_map] at hx
        obtain ⟨v, _, hv⟩ := hx
        omega
      have hleft : 1 ≤ (tiles.length : Int) - cur := by
        rcases eq_or_ne rest [] with hr | hr
        · subst hr
          simp at hdl
          omega
        · rw [List.dropLast_cons_of_ne_nil hr, List.map_cons, List.sum_cons] at hdl
          omega
      set cap : Int := ((sheet_capacity ts w : Nat) : Int) with hcapdef
      set on_sheet : Int := if cap > (tiles.length : Int) - cur then (tiles.length : Int) - cur
        else cap with hon
      have hon1 : 1 ≤ on_sheet := by
        rw [hon]
        split
        · omega
        · omega
      have honle : on_sheet ≤ (tiles.length : Int) - cur := by
        rw [hon]
        split
        · omega
        · omega
      have honcap : on_sheet ≤ cap := by
        rw [hon]
        split
        · omega
        · omega
      rw [List.mem_cons] at hs
      rcases hs with rfl | hs
      · intro hnil
        have hlen := congrArg List.length hnil
        rw [List.length_take, List.length_drop, List.length_nil] at hlen
        have hcurlt : cur.toNat < tiles.length := by omega
        have hone : 1 ≤ on_sheet.toNat := by omega
        omega
      · rcases eq_or_ne rest [] with hr | hr
        · subst hr
          simp [sheet_tile_slices] at hs
        · rw [List.dropLast_cons_of_ne_nil hr, List.map_cons, List.sum_cons] at hdl
          refine ih (cur + on_sheet) (by omega) (fun v hv => hcaps v (by simp [hv])) ?_ s hs
          omega

/-! ## The claims -/

/-- C1: Grid reconstruction — for every input raster whose width and height
are exact multiples of `tile_size`, the extraction pass
(`populate_extractor`) succeeds, and rebuilding the image by looking up each
grid cell's 1-based index of the IndexSequence in the UniqueTileSet and
tiling the resulting tiles row-major reproduces the original raster exactly,
pixel for pixel. -/
theorem C1_grid_reconstruction (image : List (List Nat)) (width height ts : Nat)
    (hts : 0 < ts) (hw : width % ts = 0) (hh : height % ts = 0)
    (him : image.length = height)
    (hrows : ∀ r ∈ image, r.length = width * 3) :
    ∃ tiles idxs, populate_extractor image width height ts = some (tiles, idxs) ∧
      reconstruct tiles idxs ts (width / ts) (height / ts) = image := by
  refine ⟨(extract_tiles (tile_candidates image ts (width / ts) (height / ts))).1,
    (extract_tiles (tile_candidates image ts (width / ts) (height / ts))).2, ?_, ?_⟩
  · unfold populate_extractor
    rw [if_neg (by omega)]
  · apply reconstruct_extract
    · rw [him, Nat.div_mul_cancel (Nat.dvd_of_mod_eq_zero hh)]
    · intro r hr
      rw [hrows r hr]
      have hcan : width / ts * ts = width := Nat.div_mul_cancel (Nat.dvd_of_mod_eq_zero hw)
      conv_lhs => rw [← hcan]
      ring

/-- Witness for C1 at a concrete 2×2 image with `tile_size = 1`. -/
theorem C1_grid_reconstruction_witness :
    ∃ tiles idxs,
      populate_extractor [[10, 20, 30, 40, 50, 60], [70, 80, 90, 100, 110, 120]] 2 2 1
        = some (tiles, idxs) ∧
      reconstruct tiles idxs 1 2 2
        = [[10, 20, 30, 40, 50, 60], [70, 80, 90, 100, 110, 120]] :=
  C1_grid_reconstruction [[10, 20, 30, 40, 50, 60], [70, 80, 90, 100, 110, 120]]
    2 2 1 (by decide) (by decide) (by decide) (by decide) (by decide)

/-- C3: Deduplicator admission — for a candidate processed against the
current UniqueTileSet, either some earlier tile is an exact structural
match, and then the 1-based index of the earliest such tile is appended to
the IndexSequence with the UniqueTileSet unchanged, or no tile matches, and
then the candidate is appended at the end and its new 1-based index (the
new length) is appended to the IndexSequence. -/
theorem C3_deduplicator_admission (tiles : List Tile) (idxs : List Nat)
    (t : Tile) (ts : Nat) (hT : tiles_ok ts tiles) (ht : tile_dims ts t) :
    (∃ i, i < tiles.length ∧ tiles.getD i [] = t ∧
      (∀ j, j < i → tiles.getD j [] ≠ t) ∧
      admit_tile (tiles, idxs) t = (tiles, idxs ++ [i + 1])) ∨
    ((∀ m ∈ tiles, m ≠ t) ∧
      admit_tile (tiles, idxs) t = (tiles ++ [t], idxs ++ [tiles.length + 1])) := by
  cases hfind : find_master_index tiles t with
  | some i =>
      left
      obtain ⟨hlt, hcmp, hprev⟩ := find_master_index_some hfind
      refine ⟨i, hlt,
        (compare_tiles_iff_of_dims (hT _ (getD_mem_of_lt tiles hlt [])) ht).mp hcmp,
        ?_, ?_⟩
      · intro j hj heq
        have hj2 : j < tiles.length := by omega
        have hcj := (compare_tiles_iff_of_dims
          (hT _ (getD_mem_of_lt tiles hj2 [])) ht).mpr heq
        rw [hprev j hj] at hcj
        simp at hcj
      · simp only [admit_tile, hfind]
  | none =>
      right
      have hnone := find_master_index_none hfind
      refine ⟨?_, ?_⟩
      · intro m hm heq
        have hcm := (compare_tiles_iff_of_dims (hT m hm) ht).mpr heq
        rw [hnone m hm] at hcm
        simp at hcm
      · simp only [admit_tile, hfind]

/-- Witness for C3 at a concrete duplicate admission. -/
theorem C3_deduplicator_admission_witness :
    (∃ i, i < ([[[1, 2, 3]]] : List Tile).length ∧
      ([[[1, 2, 3]]] : List Tile).getD i [] = [[1, 2, 3]] ∧
      (∀ j, j < i → ([[[1, 2, 3]]] : List Tile).getD j [] ≠ [[1, 2, 3]]) ∧
      admit_tile ([[[1, 2, 3]]], [1]) [[1, 2, 3]] = ([[[1, 2, 3]]], [1] ++ [i + 1])) ∨
    ((∀ m ∈ ([[[1, 2, 3]]] : List Tile), m ≠ [[1, 2, 3]]) ∧
      admit_tile ([[[1, 2, 3]]], [1]) [[1, 2, 3]]
        = ([[[1, 2, 3]]] ++ [[[1, 2, 3]]], [1] ++ [([[[1, 2, 3]]] : List Tile).length + 1])) :=
  C3_deduplicator_admission [[[1, 2, 3]]] [1] [[1, 2, 3]] 1 (by decide) (by decide)

/-- C4: UniqueTileSet distinctness — after deduplicating any list of
equally sized candidates, no two distinct entries of the resulting
UniqueTileSet are pixel-identical.  The state after any prefix of the
candidate stream is `extract_tiles` of that prefix, so quantifying over all
candidate lists covers every intermediate point of the extraction pass. -/
theorem C4_unique_tile_set_distinct (ts : Nat) (cands : List Tile)
    (hc : ∀ t ∈ cands, tile_dims ts t) :
    ∀ i j, i < j → j < (extract_tiles cands).1.length →
      (extract_tiles cands).1.getD i [] ≠ (extract_tiles cands).1.getD j [] :=
  (extract_tiles_invariant ts cands hc).2.2.2

/-- Witness for C4 on a concrete candidate stream with one duplicate. -/
theorem C4_unique_tile_set_distinct_witness :
    (extract_tiles [[[1, 2, 3]], [[1, 2, 3]], [[4, 5, 6]]]).1.getD 0 []
      ≠ (extract_tiles [[[1, 2, 3]], [[1, 2, 3]], [[4, 5, 6]]]).1.getD 1 [] :=
  C4_unique_tile_set_distinct 1 [[[1, 2, 3]], [[1, 2, 3]], [[4, 5, 6]]]
    (by decide) 0 1 (by decide) (by decide)

/-- C5: Tile equality — on tiles of equal dimensions `compare_tiles` returns
`True` exactly when every corresponding pixel channel value is identical
(no tolerance, no hashing; list equality is channelwise equality under the
dimension hypotheses).  The Python comparison is `is not` on channel
values, which CPython's small-integer interning makes coincide with value
inequality for the 8-bit channel data this program handles. -/
theorem C5_tile_equality (t1 t2 : Tile)
    (hlen : t1.length = t2.length)
    (hrows : ∀ p, p < t1.length → (t1.getD p []).length = (t2.getD p []).length) :
    compare_tiles t1 t2 = true ↔ t1 = t2 :=
  compare_tiles_eq_true_iff t1 t2 hlen hrows

/-- Witness for C5 on concrete equally sized tiles. -/
theorem C5_tile_equality_witness :
    compare_tiles [[7, 8, 9]] [[7, 8, 9]] = true ↔ ([[7, 8, 9]] : Tile) = [[7, 8, 9]] :=
  C5_tile_equality [[7, 8, 9]] [[7, 8, 9]] (by decide) (by decide)

/-- C2 counterexample: the document actually written by
`output_tmx_for_tiles` declares `encoding="base64"` and no `compression`
attribute, while the read path of `get_tile_indices` reads the
`compression` attribute unconditionally (line 338, a `KeyError` in Python)
and then accepts only base64+gzip and gzip-decompresses; decoding the map
document carrying the encoded form of `[1]` therefore fails instead of
returning `[1]` — `decode(encode(x)) = x` does not hold on the code. -/
theorem C2_codec_roundtrip_counterexample :
    get_tile_indices [output_tmx_layer [1]] = .error .missingAttr ∧
      get_tile_indices [output_tmx_layer [1]] ≠ .ok [1] := by
  constructor
  · rfl
  · intro hcon
    rw [show get_tile_indices [output_tmx_layer [1]]
        = Except.error DecodeError.missingAttr from rfl] at hcon
    exact Except.noConfusion hcon

/-- C2 (amended): the round trip holds once the payload is gzip-compressed
as the read path demands — decoding a map-description document that
declares base64+gzip and carries the base64 encoding of the gzip-compressed
packed index buffer returns exactly the original IndexSequence (each index
below `2^32`, as `struct.pack("<L", n)` requires). -/
theorem C2_codec_roundtrip (x : List Nat) (hx : ∀ n ∈ x, n < 4294967296) :
    get_tile_indices [{ encoding := some "base64", compression := some "gzip",
                        text := b64encode (gzip_compress (get_packed_indices x)) }]
      = .ok x := by
  apply get_tile_indices_single
  rw [decode_layer_gzip _ (get_packed_indices_lt x), unpack_packed x hx]

/-- Witness for the amended C2 at a concrete index sequence. -/
theorem C2_codec_roundtrip_witness :
    get_tile_indices [{ encoding := some "base64", compression := some "gzip",
                        text := b64encode (gzip_compress (get_packed_indices [1, 2, 3])) }]
      = .ok [1, 2, 3] :=
  C2_codec_roundtrip [1, 2, 3] (by decide)

/-- C6: Sheet-planning greedy rule — with the capacity table built from
`maxWidth` halving down to `minWidth`, an iteration of the consuming loop
picks the largest sheet when the remaining count exceeds the largest
capacity, and otherwise picks the smallest sheet whose capacity is at least
the remaining count (in that branch the table's head already suffices, so
the fallback to the smallest sheet never fires); in particular
`get_tile_sheet_specs 300 32 64 512 = [512, 256]`. -/
theorem C6_sheet_planning_greedy (ts minW maxW : Nat) (left : Int)
    (h1 : 1 ≤ minW) (h2 : minW ≤ maxW) :
    ((((((build_tiles_table ts minW maxW maxW).headD (0, 0)).2 : Nat) : Int) < left →
        pick_sheet (build_tiles_table ts minW maxW maxW) left
          = (build_tiles_table ts minW maxW maxW).headD (0, 0)) ∧
      (left ≤ ((((build_tiles_table ts minW maxW maxW).headD (0, 0)).2 : Nat) : Int) →
        pick_sheet (build_tiles_table ts minW maxW maxW) left
            ∈ build_tiles_table ts minW maxW maxW ∧
          left ≤ ((pick_sheet (build_tiles_table ts minW maxW maxW) left).2 : Int) ∧
          ∀ e ∈ build_tiles_table ts minW maxW maxW, left ≤ (e.2 : Int) →
            (pick_sheet (build_tiles_table ts minW maxW maxW) left).1 ≤ e.1)) ∧
    get_tile_sheet_specs 300 32 64 512 = some [512, 256] := by
  refine ⟨⟨?_, ?_⟩, ?_⟩
  · intro hbig
    unfold pick_sheet
    rw [if_pos (by omega)]
  · intro hsmall
    exact pick_sheet_else (build_tiles_table_pairwise h1 maxW maxW)
      (build_tiles_table_ne h1 h2) (by omega)
  · decide

/-- Witness for C6 at the spec's own example configuration. -/
theorem C6_sheet_planning_greedy_witness :
    ((((((build_tiles_table 32 64 512 512).headD (0, 0)).2 : Nat) : Int) < 300 →
        pick_sheet (build_tiles_table 32 64 512 512) 300
          = (build_tiles_table 32 64 512 512).headD (0, 0)) ∧
      ((300 : Int) ≤ ((((build_tiles_table 32 64 512 512).headD (0, 0)).2 : Nat) : Int) →
        pick_sheet (build_tiles_table 32 64 512 512) 300
            ∈ build_tiles_table 32 64 512 512 ∧
          (300 : Int) ≤ ((pick_sheet (build_tiles_table 32 64 512 512) 300).2 : Int) ∧
          ∀ e ∈ build_tiles_table 32 64 512 512, (300 : Int) ≤ (e.2 : Int) →
            (pick_sheet (build_tiles_table 32 64 512 512) 300).1 ≤ e.1)) ∧
    get_tile_sheet_specs 300 32 64 512 = some [512, 256] :=
  C6_sheet_planning_greedy 32 64 512 300 (by decide) (by decide)

/-- C7: Sheet coverage — for a positive tile count (with the tile size
positive and at most the maximum sheet width, so sheets hold tiles at all),
the planned widths cover the tile count and the plan has no redundant
trailing sheet: dropping the last width leaves total capacity strictly
below the count. -/
theorem C7_sheet_coverage (n ts minW maxW : Nat)
    (hn : 0 < n) (hts : 0 < ts) (htsmax : ts ≤ maxW)
    (h1 : 1 ≤ minW) (h2 : minW ≤ maxW) :
    ∃ widths, get_tile_sheet_specs n ts minW maxW = some widths ∧
      (n : Int) ≤ (widths.map (fun w => (sheet_capacity ts w : Int))).sum ∧
      (widths.dropLast.map (fun w => (sheet_capacity ts w : Int))).sum < (n : Int) := by
  have hcap : 1 ≤ sheet_capacity ts maxW := by
    unfold sheet_capacity
    have hdiv : 1 ≤ maxW / ts := (Nat.one_le_div_iff hts).mpr htsmax
    exact Nat.one_le_pow 2 (maxW / ts) (by omega)
  obtain ⟨res, hres⟩ := sheet_loop_terminates h1 h2 hcap n (n : Int) [] (le_refl _)
  obtain ⟨suffix, hse, hsne, hsum, hdl, hcapsall⟩ :=
    sheet_loop_coverage h1 h2 hcap n (n : Int) [] res (by exact_mod_cast hn) hres
  rw [List.nil_append] at hse
  subst hse
  exact ⟨res, hres, hsum, hdl⟩

/-- Witness for C7 at the 300-tile example. -/
theorem C7_sheet_coverage_witness :
    ∃ widths, get_tile_sheet_specs 300 32 64 512 = some widths ∧
      (300 : Int) ≤ (widths.map (fun w => (sheet_capacity 32 w : Int))).sum ∧
      (widths.dropLast.map (fun w => (sheet_capacity 32 w : Int))).sum < (300 : Int) :=
  C7_sheet_coverage 300 32 64 512 (by decide) (by decide) (by decide) (by decide) (by decide)

/-- C8 counterexample: totality fails for an unconstrained `tile_size` — at
`tile_size = 1024` with the default 64…512 table every sheet capacity is
zero, so for `tileCount = 1 > 0` the loop of `get_tile_sheet_specs` never
lowers the remaining count: the Python `while` loop diverges, the
fuel-encoded loop succeeds for no fuel at all, and the `num_tiles`-fuelled
embedding returns `none` rather than a non-empty width sequence. -/
theorem C8_sheet_planning_totality_counterexample :
    get_tile_sheet_specs 1 1024 64 512 = none ∧
      ¬ ∃ fuel res, sheet_loop (build_tiles_table 1024 64 512 512) fuel 1 [] = some res := by
  constructor
  · decide
  · rintro ⟨fuel, res, hres⟩
    rw [sheet_loop_zero_cap_none fuel []] at hres
    exact Option.noConfusion hres

/-- C8 (amended): totality holds in the configured regime — whenever
`tileCount > 0` and `0 < tile_size ≤ max_sheet_width` (so the largest sheet
holds at least one tile) with `1 ≤ min_sheet_width ≤ max_sheet_width`, the
loop terminates (fuel `tileCount` suffices: every iteration either finishes
or subtracts a positive capacity, even into the negative, stopping once the
remainder is `≤ 0`) and returns a non-empty sequence of widths. -/
theorem C8_sheet_planning_totality (n ts minW maxW : Nat)
    (hn : 0 < n) (hts : 0 < ts) (htsmax : ts ≤ maxW)
    (h1 : 1 ≤ minW) (h2 : minW ≤ maxW) :
    ∃ widths, get_tile_sheet_specs n ts minW maxW = some widths ∧ widths ≠ [] := by
  have hcap : 1 ≤ sheet_capacity ts maxW := by
    unfold sheet_capacity
    have hdiv : 1 ≤ maxW / ts := (Nat.one_le_div_iff hts).mpr htsmax
    exact Nat.one_le_pow 2 (maxW / ts) (by omega)
  obtain ⟨res, hres⟩ := sheet_loop_terminates h1 h2 hcap n (n : Int) [] (le_refl _)
  obtain ⟨suffix, hse, hsne, _, _, _⟩ :=
    sheet_loop_coverage h1 h2 hcap n (n : Int) [] res (by exact_mod_cast hn) hres
  rw [List.nil_append] at hse
  refine ⟨res, hres, ?_⟩
  rw [hse]
  exact hsne

/-- Witness for the amended C8 at a small configuration. -/
theorem C8_sheet_planning_totality_witness :
    ∃ widths, get_tile_sheet_specs 5 2 2 4 = some widths ∧ widths ≠ [] :=
  C8_sheet_planning_totality 5 2 2 4 (by decide) (by decide) (by decide) (by decide)
    (by decide)

/-- C9 counterexample: the decode path has no byte-length check — a decoded
buffer of 5 bytes (not a multiple of 4) is not rejected: line 351 floors
`len / 4`, the trailing byte is silently ignored, and decoding returns the
index list `[1]` instead of failing with a FormatError. -/
theorem C9_decode_no_length_check_counterexample :
    get_tile_indices [{ encoding := some "base64", compression := some "gzip",
                        text := b64encode (gzip_compress [1, 0, 0, 0, 9]) }]
      = .ok [1] := by
  apply get_tile_indices_single
  rw [decode_layer_gzip [1, 0, 0, 0, 9] (by decide)]
  rfl

/-- C9 (amended): for every decoded byte buffer — of any length, multiple
of 4 or not — the decode succeeds and parses exactly `len / 4` little-endian
32-bit integers from the front, silently dropping up to three trailing
bytes; no length error exists on this path. -/
theorem C9_decode_no_length_check (raw : List Nat) (hbytes : ∀ x ∈ raw, x < 256) :
    get_tile_indices [{ encoding := some "base64", compression := some "gzip",
                        text := b64encode (gzip_compress raw) }]
      = .ok ((List.range (raw.length / 4)).map (fun i =>
          unpack_u32 ((raw.drop (i * 4)).take 4))) :=
  get_tile_indices_single (decode_layer_gzip raw hbytes)

/-- Witness for the amended C9 on a 6-byte buffer. -/
theorem C9_decode_no_length_check_witness :
    get_tile_indices [{ encoding := some "base64", compression := some "gzip",
                        text := b64encode (gzip_compress [2, 0, 0, 0, 7, 7]) }]
      = .ok ((List.range (([2, 0, 0, 0, 7, 7] : List Nat).length / 4)).map (fun i =>
          unpack_u32 ((([2, 0, 0, 0, 7, 7] : List Nat).drop (i * 4)).take 4))) :=
  C9_decode_no_length_check [2, 0, 0, 0, 7, 7] (by decide)

/-- C10: `output_tiles_to_sheet` reads `len(tiles[0])` and so is defined
only for a non-empty tile slice; under any plan produced by
`get_tile_sheet_specs` for the extracted tile count (in the configured
regime), every slice that the loop of `output_tiles_to_sheets` passes on is
non-empty — the empty slice never occurs, so the access never faults on the
extraction path. -/
theorem C10_sheet_slices_nonempty (tiles : List Tile) (ts minW maxW : Nat)
    (widths : List Nat)
    (hn : 0 < tiles.length) (hts : 0 < ts) (htsmax : ts ≤ maxW)
    (h1 : 1 ≤ minW) (h2 : minW ≤ maxW)
    (hplan : get_tile_sheet_specs tiles.length ts minW maxW = some widths) :
    ([] : List Tile) ∉ sheet_tile_slices tiles ts 0 widths := by
  have hcap : 1 ≤ sheet_capacity ts maxW := by
    unfold sheet_capacity
    have hdiv : 1 ≤ maxW / ts := (Nat.one_le_div_iff hts).mpr htsmax
    exact Nat.one_le_pow 2 (maxW / ts) (by omega)
  obtain ⟨suffix, hse, hsne, hsum, hdl, hcapsall⟩ :=
    sheet_loop_coverage h1 h2 hcap tiles.length (tiles.length : Int) [] widths
      (by exact_mod_cast hn) hplan
  rw [List.nil_append] at hse
  subst hse
  intro hmem
  exact sheet_tile_slices_ne_nil tiles ts widths 0 (le_refl 0) hcapsall
    (by simpa using hdl) [] hmem rfl

/-- Witness for C10 at a one-tile extraction. -/
theorem C10_sheet_slices_nonempty_witness :
    ([] : List Tile) ∉ sheet_tile_slices [[[1, 2, 3]]] 1 0 [1] :=
  C10_sheet_slices_nonempty [[[1, 2, 3]]] 1 1 1 [1] (by decide) (by decide) (by decide)
    (by decide) (by decide) (by decide)
